import Mathlib

/-!
Verification development for the shellm PTY relay and chat overlay.

The first half embeds `src/pty/responder.rs` (the escape-sequence
responder): bytes are modelled as `Nat`, the pending buffer as `List Nat`,
and `VtResponder::process` as a fuel-indexed scanner `scanF` driven by a
single-token step function `scanStep`.  The second half embeds the chat
overlay geometry from `src/chat.rs`.
-/

namespace Shellm

/-- The escape byte 0x1B. -/
def escByte : Nat := 27

/-- `parse_csi_end` from responder.rs: scan for the first byte in
0x40..=0x7E; returns the parameter bytes, the final byte and the rest. -/
def csiSplit : List Nat → Option (List Nat × Nat × List Nat)
  | [] => none
  | x :: xs =>
    if 64 ≤ x ∧ x ≤ 126 then some ([], x, xs)
    else (csiSplit xs).map (fun pfa => (x :: pfa.1, pfa.2.1, pfa.2.2))

/-- `parse_osc_end` from responder.rs: scan for BEL (0x07) or ST
(ESC `\`, 0x1B 0x5C); returns the consumed bytes (terminator included)
and the rest.  An ESC that is the last byte of the buffer does not
terminate the sequence (mirroring the `i + 1 < buf.len()` guard). -/
def oscSplit : List Nat → Option (List Nat × List Nat)
  | [] => none
  | x :: xs =>
    if x = 7 then some ([x], xs)
    else if x = 27 then
      match xs with
      | [] => none
      | y :: ys =>
        if y = 92 then some ([x, y], ys)
        else (oscSplit (y :: ys)).map (fun ca => (x :: ca.1, ca.2))
    else (oscSplit xs).map (fun ca => (x :: ca.1, ca.2))

/-- `parse_st_terminated` from responder.rs: scan adjacent pairs for
ESC `\`; returns the consumed bytes (terminator included) and the rest. -/
def stSplit : List Nat → Option (List Nat × List Nat)
  | [] => none
  | [_] => none
  | x :: y :: ys =>
    if x = 27 ∧ y = 92 then some ([x, y], ys)
    else (stSplit (y :: ys)).map (fun ca => (x :: ca.1, ca.2))

/-- `parse_esc` from responder.rs: skip intermediates in 0x20..=0x2F and
stop at the first byte outside that range (the code accepts any such byte
as the final byte). -/
def escSplit : List Nat → Option (List Nat × Nat × List Nat)
  | [] => none
  | x :: xs =>
    if 32 ≤ x ∧ x ≤ 47 then
      (escSplit xs).map (fun ifa => (x :: ifa.1, ifa.2.1, ifa.2.2))
    else some ([], x, xs)

/-- The intercepted cursor-position query `ESC [ 6 n`. -/
def qCPR : List Nat := [27, 91, 54, 110]

/-- The fixed `ESC[0n` answer to `ESC[5n`. -/
def dsr0Response : List Nat := [27, 91, 48, 110]

/-- The fixed `ESC[?1;0c` answer to `ESC[c`. -/
def da1Response : List Nat := [27, 91, 63, 49, 59, 48, 99]

/-- Decimal digit bytes of a natural number, as produced by Rust's
`format!` for an unsigned integer. -/
def natDecimalBytes (n : Nat) : List Nat := (Nat.toDigits 10 n).map Char.toNat

/-- `u16::saturating_add(1)` on a `u16` value modelled as `Nat`. -/
def satAddOne16 (x : Nat) : Nat := min (x + 1) 65535

/-- `cursor_position_response` from responder.rs.  The call to
`crossterm::cursor::position()` (which returns `(col, row)` or fails) is
modelled by the `env` parameter. -/
def cursor_position_response (env : Option (Nat × Nat)) : List Nat :=
  match env with
  | some (col, row) =>
    [27, 91] ++ natDecimalBytes (satAddOne16 row) ++ [59]
      ++ natDecimalBytes (satAddOne16 col) ++ [82]
  | none => [27, 91, 49, 59, 49, 82]

/-- One iteration of the `while` loop in `VtResponder::process`: consume
either one plain byte or one complete escape sequence from the front of
the buffer, returning the bytes emitted to the filtered output, the
responses emitted, and the remaining buffer.  `none` means the loop
breaks (incomplete sequence) or the buffer is exhausted. -/
def scanStep (cpr : List Nat) (buf : List Nat) :
    Option ((List Nat × List (List Nat)) × List Nat) :=
  match buf with
  | [] => none
  | b :: rest =>
    if b = 27 then
      match rest with
      | [] => none
      | c :: rest2 =>
        if c = 91 then
          match csiSplit rest2 with
          | none => none
          | some (params, fin, after) =>
            let seq := 27 :: 91 :: (params ++ [fin])
            if seq = qCPR then some (([], [cpr]), after)
            else if seq = [27, 91, 53, 110] then some (([], [dsr0Response]), after)
            else if seq = [27, 91, 99] then some (([], [da1Response]), after)
            else some ((seq, []), after)
        else if c = 93 then
          match oscSplit rest2 with
          | none => none
          | some (body, after) => some ((27 :: 93 :: body, []), after)
        else if c = 80 ∨ c = 88 ∨ c = 94 ∨ c = 95 then
          match stSplit rest2 with
          | none => none
          | some (body, after) => some ((27 :: c :: body, []), after)
        else
          match escSplit rest with
          | none => none
          | some (inter, fin, after) => some ((27 :: (inter ++ [fin]), []), after)
    else
      some (([b], []), rest)

/-- The scanning loop of `VtResponder::process`, indexed by fuel (one
unit per consumed token; `buf.length` is always enough).  Returns the
filtered output, the emitted responses in order, and the new pending
buffer. -/
def scanF (cpr : List Nat) : Nat → List Nat → List Nat × List (List Nat) × List Nat
  | 0, buf => ([], [], buf)
  | fuel + 1, buf =>
    match scanStep cpr buf with
    | none => ([], [], buf)
    | some ((o, r), after) =>
      let res := scanF cpr fuel after
      (o ++ res.1, r ++ res.2.1, res.2.2)

/-- Scan a whole buffer (fuel = length always suffices). -/
def vtScan (cpr : List Nat) (buf : List Nat) : List Nat × List (List Nat) × List Nat :=
  scanF cpr buf.length buf

/-- `VtResponder::process`: append the chunk to the pending buffer and
scan.  `env` models the real terminal cursor position used by
`cursor_position_response`. -/
def vtProcess (env : Option (Nat × Nat)) (pending chunk : List Nat) :
    List Nat × List (List Nat) × List Nat :=
  vtScan (cursor_position_response env) (pending ++ chunk)

/-- A sequence of `process` calls threading the pending buffer from the
given initial state, concatenating outputs and responses in order. -/
def runChunks (env : Option (Nat × Nat)) (pending : List Nat) :
    List (List Nat) → List Nat × List (List Nat) × List Nat
  | [] => ([], [], pending)
  | c :: cs =>
    let x := vtProcess env pending c
    let y := runChunks env x.2.2 cs
    (x.1 ++ y.1, x.2.1 ++ y.2.1, y.2.2)

/-- `Iterator::position`: index of the first element satisfying `p`. -/
def listPosition (p : Nat → Bool) : List Nat → Option Nat
  | [] => none
  | x :: xs => if p x then some 0 else (listPosition p xs).map (fun i => i + 1)

/-- `VtResponder::finish`: flush the bytes before the first escape byte
to the tail sink, clear the pending buffer, return `Ok(())` (modelled as
`some ()`).  Components: (flushed bytes, new pending buffer, result). -/
def vtFinish (pending : List Nat) : List Nat × List Nat × Option Unit :=
  match listPosition (fun b => b == 27) pending with
  | some pos => (if 0 < pos then pending.take pos else [], [], some ())
  | none => (if pending = [] then [] else pending, [], some ())

/-- The pending-buffer invariant of claim C10: empty, or an escape byte
followed by a still-incomplete sequence of the family selected by its
second byte. -/
def pendingIncomplete (p : List Nat) : Prop :=
  match p with
  | [] => True
  | b :: rest =>
    b = 27 ∧
      (match rest with
       | [] => True
       | c :: rest2 =>
         if c = 91 then csiSplit rest2 = none
         else if c = 93 then oscSplit rest2 = none
         else if c = 80 ∨ c = 88 ∨ c = 94 ∨ c = 95 then stSplit rest2 = none
         else escSplit (c :: rest2) = none)

/-- A response has the shape of a cursor-position report exactly when it
ends in the final byte `R` (0x52); among the three possible responder
answers only the cursor report does. -/
def isCPR (resp : List Nat) : Bool := resp.getLast? == some 82

/-- Number of occurrences of `pat` as a contiguous substring of `l`. -/
def substrCount (l pat : List Nat) : Nat :=
  (List.range (l.length + 1)).countP (fun i => (l.drop i).take pat.length == pat)

/-! ## The chat overlay (src/chat.rs, src/i18n.rs, src/llm/mod.rs, src/main.rs)

Text is modelled as `List Char` (the character sequence of a Rust
`&str`); the i18n message table is embedded verbatim. -/

/-- `approx_char_width` from chat.rs: control characters are width 0,
other ASCII width 1, everything else width 2. -/
def approx_char_width (c : Char) : Nat :=
  if c.toNat ≤ 31 ∨ c.toNat = 127 then 0
  else if c.toNat ≤ 127 then 1
  else 2

/-- `approx_display_width` from chat.rs. -/
def approx_display_width (s : List Char) : Nat :=
  (s.map approx_char_width).sum

/-- `wrap_rows` from chat.rs: `1` when `cols = 0`, otherwise
`(width.max(1) + cols - 1) / cols`. -/
def wrap_rows (visible : List Char) (cols : Nat) : Nat :=
  if cols = 0 then 1
  else (max (approx_display_width visible) 1 + cols - 1) / cols

/-- The reverse-order accumulation loop of `truncate_tail_by_width`:
walk the characters from the end (the input here is already reversed),
taking characters while the accumulated width stays within
`max_width`. -/
def tailTake (max_width : Nat) : Nat → List Char → List Char
  | _, [] => []
  | width, c :: rest =>
    let w := approx_char_width c
    if max_width < width + w then []
    else c :: tailTake max_width (width + w) rest

/-- `truncate_tail_by_width` from chat.rs. -/
def truncate_tail_by_width (s : List Char) (max_width : Nat) : List Char :=
  if max_width = 0 then []
  else if approx_display_width s ≤ max_width then s
  else (tailTake max_width 0 s.reverse).reverse

/-- Rust `char::is_whitespace` (the Unicode White_Space property). -/
def rustIsWhitespace (c : Char) : Bool :=
  decide ((9 ≤ c.toNat ∧ c.toNat ≤ 13) ∨ c.toNat = 32 ∨ c.toNat = 133 ∨
    c.toNat = 160 ∨ c.toNat = 5760 ∨ (8192 ≤ c.toNat ∧ c.toNat ≤ 8202) ∨
    c.toNat = 8232 ∨ c.toNat = 8233 ∨ c.toNat = 8239 ∨ c.toNat = 8287 ∨
    c.toNat = 12288)

/-- Rust `str::trim`: drop whitespace from both ends. -/
def rustTrim (s : List Char) : List Char :=
  ((s.dropWhile rustIsWhitespace).reverse.dropWhile rustIsWhitespace).reverse

/-- `normalize_to_single_line` from chat.rs: newlines become spaces, then
trim. -/
def normalize_to_single_line (s : List Char) : List Char :=
  rustTrim (s.map (fun c => if c = '\n' ∨ c = '\r' then ' ' else c))

/-- Strip one trailing carriage return, as Rust `str::lines` does. -/
def stripTrailingCr (l : List Char) : List Char :=
  if l.getLast? = some '\r' then l.dropLast else l

/-- Rust `str::lines`: split on `\n`, dropping one final empty segment
(for a trailing newline) and one trailing `\r` per line; the empty string
yields no lines. -/
def rustLines (s : List Char) : List (List Char) :=
  if s = [] then []
  else
    let parts := s.splitOn '\n'
    let parts2 := if parts.getLast? = some [] then parts.dropLast else parts
    parts2.map stripTrailingCr

/-- The two UI languages of src/i18n.rs. -/
inductive Language where
  | En : Language
  | Zh : Language

/-- The message keys of src/i18n.rs. -/
inductive MessageKey where
  | WelcomeMessage : MessageKey
  | PromptUser : MessageKey
  | PromptAssistant : MessageKey
  | PromptCandidate : MessageKey
  | ThinkingProcess : MessageKey
  | HintToggleReasoning : MessageKey
  | ReasoningStart : MessageKey
  | ReasoningEnd : MessageKey
  | ReasoningTruncated : MessageKey

/-- The message table `t` of src/i18n.rs. -/
def t (lang : Language) (key : MessageKey) : List Char :=
  (match lang, key with
   | Language.En, MessageKey.WelcomeMessage =>
     "[LLM chat] Type your question. Ctrl+L accepts the command. Ctrl+C exits. Ctrl+R toggles reasoning."
   | Language.Zh, MessageKey.WelcomeMessage =>
     "[LLM chat] 输入您的问题。Ctrl+L 接受命令，Ctrl+C 退出，Ctrl+R 展开/折叠思维链。"
   | Language.En, MessageKey.PromptUser => "you> "
   | Language.Zh, MessageKey.PromptUser => "你> "
   | Language.En, MessageKey.PromptAssistant => "assistant> "
   | Language.Zh, MessageKey.PromptAssistant => "助手> "
   | Language.En, MessageKey.PromptCandidate => "candidate: "
   | Language.Zh, MessageKey.PromptCandidate => "候选命令: "
   | Language.En, MessageKey.ThinkingProcess => "[Thinking] "
   | Language.Zh, MessageKey.ThinkingProcess => "[思考中] "
   | Language.En, MessageKey.HintToggleReasoning => "(Ctrl+R to expand/collapse reasoning)"
   | Language.Zh, MessageKey.HintToggleReasoning => "(Ctrl+R 展开/折叠思维链)"
   | Language.En, MessageKey.ReasoningStart => "--- Reasoning ---"
   | Language.Zh, MessageKey.ReasoningStart => "--- 思维链 ---"
   | Language.En, MessageKey.ReasoningEnd => "--- End ---"
   | Language.Zh, MessageKey.ReasoningEnd => "--- 结束 ---"
   | Language.En, MessageKey.ReasoningTruncated => "(truncated to fit terminal height)"
   | Language.Zh, MessageKey.ReasoningTruncated => "（内容过长，已按终端高度截断）").data

/-- Rows used by the `assistant> {answer}` line of `render_reply_block`. -/
def assistantRowsOf (lang : Language) (answer : List Char) (cols : Nat) : Nat :=
  wrap_rows (t lang MessageKey.PromptAssistant ++ normalize_to_single_line answer) cols

/-- Rows used by the optional `candidate: {cmd}` line of
`render_reply_block` (zero when the normalized command is absent or
empty, mirroring `.filter(|s| !s.is_empty())`). -/
def candidateRowsOf (lang : Language) (cmd : Option (List Char)) (cols : Nat) : Nat :=
  match Option.map normalize_to_single_line cmd with
  | some c => if c = [] then 0 else wrap_rows (t lang MessageKey.PromptCandidate ++ c) cols
  | none => 0

/-- The tail-selection loop of `render_reply_block`: iterate the
reasoning lines from the newest (the input is the reversed line list),
keeping whole lines while they fit the row budget and width-truncating
the first line that does not; returns the selected lines (newest first)
and the content rows consumed. -/
def selectTailGo (cols budget : Nat) : Nat → List (List Char) → List (List Char) × Nat
  | used, [] => ([], used)
  | used, line :: rev_rest =>
    let rows := wrap_rows line cols
    if used + rows ≤ budget then
      let res := selectTailGo cols budget (used + rows) rev_rest
      (line :: res.1, res.2)
    else
      let remaining := budget - used
      if remaining = 0 then ([], used)
      else
        let truncated := truncate_tail_by_width line (remaining * cols)
        if truncated = [] then ([], used) else ([truncated], used + remaining)

/-- `render_reply_block` from chat.rs, modelled by the number of terminal
rows it writes (its Rust return value `used_rows`); the printing itself
is terminal I/O and does not affect the count. -/
def render_reply_block (lang : Language) (reasoning : Option (List Char))
    (reasoning_expanded : Bool) (answer : List Char) (cmd : Option (List Char))
    (term_cols max_rows : Nat) : Nat :=
  let assistant_rows := assistantRowsOf lang answer term_cols
  let candidate_rows := candidateRowsOf lang cmd term_cols
  let reasoning_rows :=
    match reasoning with
    | none => 0
    | some rtext =>
      if reasoning_expanded then
        let start_rows := wrap_rows (t lang MessageKey.ReasoningStart) term_cols
        let end_rows := wrap_rows (t lang MessageKey.ReasoningEnd) term_cols
        let reserved := assistant_rows + candidate_rows + start_rows + end_rows
        if max_rows ≤ reserved then
          wrap_rows (t lang MessageKey.HintToggleReasoning) term_cols
        else
          let budget0 := max_rows - reserved
          let rlines := rustLines rtext
          let total := (rlines.map (fun l => wrap_rows l term_cols)).sum
          let show_truncated := budget0 < total
          let truncated_rows := wrap_rows (t lang MessageKey.ReasoningTruncated) term_cols
          let budget :=
            if show_truncated then
              if budget0 ≤ truncated_rows then 0 else budget0 - truncated_rows
            else budget0
          let content_rows :=
            if 0 < budget then (selectTailGo term_cols budget 0 rlines.reverse).2 else 0
          start_rows + (if show_truncated then truncated_rows else 0)
            + content_rows + end_rows
      else wrap_rows (t lang MessageKey.HintToggleReasoning) term_cols
  reasoning_rows + assistant_rows + candidate_rows

/-- The overlay state that `chat_mode` keeps across events. -/
structure OverlayState where
  last_cmd : Option (List Char)
  last_answer : Option (List Char)
  last_reasoning : Option (List Char)
  reasoning_expanded : Bool
  last_reply_rows : Nat

/-- The Ctrl+R branch of `chat_mode`: when a reasoning trace exists and a
previous render recorded a positive row count, flip the expanded flag and
re-render, recording the new row count; otherwise do nothing.  Terminal
clearing and scrolling are I/O and do not affect the recorded count. -/
def toggleStep (lang : Language) (cols maxRows : Nat) (st : OverlayState) : OverlayState :=
  if st.last_reasoning.isSome ∧ 0 < st.last_reply_rows then
    let e := !st.reasoning_expanded
    let rows := render_reply_block lang st.last_reasoning e
      (st.last_answer.getD []) st.last_cmd cols maxRows
    { st with reasoning_expanded := e, last_reply_rows := rows }
  else st

/-- `Role` from src/llm/mod.rs. -/
inductive Role where
  | User : Role
  | Assistant : Role

/-- `ChatMessage` from src/llm/mod.rs. -/
structure ChatMessage where
  role : Role
  content : List Char

/-- `ChatReply` from src/llm/mod.rs. -/
structure ChatReply where
  text : List Char
  suggested_command : Option (List Char)
  reasoning : Option (List Char)

/-- The Enter branch of `chat_mode` for a non-empty line, from the
`llm.chat(...)?` call onward.  `llmResult` models the outcome of the
blocking LLM call.  The `?` operator makes an `Err` an immediate early
return of `chat_mode` itself, modelled by propagating
`Except.error`; on success the overlay state and history are updated and
the reply block is rendered. -/
def submitLine (lang : Language) (cols maxRows : Nat) (_st : OverlayState)
    (history : List ChatMessage) (line : List Char)
    (llmResult : Except (List Char) ChatReply) :
    Except (List Char) (OverlayState × List ChatMessage) :=
  match llmResult with
  | Except.error e => Except.error e
  | Except.ok response =>
    let cmdKept := response.suggested_command.filter (fun c => !(c == []))
    let st1 : OverlayState :=
      { last_cmd := cmdKept
        last_answer := some response.text
        last_reasoning := response.reasoning
        reasoning_expanded := false
        last_reply_rows :=
          render_reply_block lang response.reasoning false response.text cmdKept
            cols maxRows }
    Except.ok (st1,
      history ++ [⟨Role.User, line⟩, ⟨Role.Assistant, response.text⟩])

/-- UTF-8 encoding of one scalar value (Rust `str::as_bytes`). -/
def utf8Encode (c : Char) : List Nat :=
  let n := c.toNat
  if n < 128 then [n]
  else if n < 2048 then [192 + n / 64, 128 + n % 64]
  else if n < 65536 then [224 + n / 4096, 128 + (n / 64) % 64, 128 + n % 64]
  else [240 + n / 262144, 128 + (n / 4096) % 64, 128 + (n / 64) % 64, 128 + n % 64]

/-- UTF-8 bytes of a string. -/
def strUtf8 (s : List Char) : List Nat := (s.map utf8Encode).flatten

/-- The writes `run_event_loop` makes into the PTY after `chat_mode`
returns (src/main.rs): first `session.write(b"\r")`, then, only when a
command was accepted, `session.write(cmd.as_bytes())`. -/
def chatAcceptWrites (result : Option (List Char)) : List (List Nat) :=
  [[13]] ++ (match result with
    | some cmd => [strUtf8 cmd]
    | none => [])

/-! ### Structure of the four sequence parsers -/

theorem csiSplit_eq_strong : ∀ l p f a, csiSplit l = some (p, f, a) →
    l = p ++ f :: a ∧ (∀ x ∈ p, ¬(64 ≤ x ∧ x ≤ 126)) ∧ (64 ≤ f ∧ f ≤ 126) := by
  intro l
  induction l with
  | nil => intro p f a h; simp [csiSplit] at h
  | cons x xs ih =>
    intro p f a h
    simp only [csiSplit] at h
    split at h
    next hx =>
      simp only [Option.some.injEq, Prod.mk.injEq] at h
      obtain ⟨rfl, rfl, rfl⟩ := h
      exact ⟨rfl, by simp, hx⟩
    next hx =>
      cases hc : csiSplit xs with
      | none => rw [hc] at h; simp at h
      | some pfa =>
        obtain ⟨p', f', a'⟩ := pfa
        rw [hc] at h
        simp only [Option.map_some', Option.some.injEq, Prod.mk.injEq] at h
        obtain ⟨rfl, rfl, rfl⟩ := h
        obtain ⟨he, hp, hf⟩ := ih p' f' a' hc
        refine ⟨by rw [List.cons_append, ← he], ?_, hf⟩
        intro z hz
        rcases List.mem_cons.mp hz with rfl | hz'
        · exact hx
        · exact hp z hz'

theorem csiSplit_complete : ∀ p f a, (∀ x ∈ p, ¬(64 ≤ x ∧ x ≤ 126)) → (64 ≤ f ∧ f ≤ 126) →
    csiSplit (p ++ f :: a) = some (p, f, a) := by
  intro p
  induction p with
  | nil => intro f a _ hf; simp [csiSplit, hf]
  | cons x p' ih =>
    intro f a hp hf
    have hx : ¬(64 ≤ x ∧ x ≤ 126) := hp x (List.mem_cons_self x p')
    simp only [List.cons_append, csiSplit, List.append_eq, if_neg hx,
      ih f a (fun z hz => hp z (List.mem_cons_of_mem x hz)) hf, Option.map_some']

theorem csiSplit_append (l ys : List Nat) (p f a) (h : csiSplit l = some (p, f, a)) :
    csiSplit (l ++ ys) = some (p, f, a ++ ys) := by
  obtain ⟨he, hp, hf⟩ := csiSplit_eq_strong l p f a h
  subst he
  rw [List.append_assoc, List.cons_append]
  exact csiSplit_complete p f (a ++ ys) hp hf

theorem escSplit_eq_strong : ∀ l i f a, escSplit l = some (i, f, a) →
    l = i ++ f :: a ∧ (∀ x ∈ i, 32 ≤ x ∧ x ≤ 47) ∧ ¬(32 ≤ f ∧ f ≤ 47) := by
  intro l
  induction l with
  | nil => intro i f a h; simp [escSplit] at h
  | cons x xs ih =>
    intro i f a h
    simp only [escSplit] at h
    split at h
    next hx =>
      cases hc : escSplit xs with
      | none => rw [hc] at h; simp at h
      | some ifa =>
        obtain ⟨i', f', a'⟩ := ifa
        rw [hc] at h
        simp only [Option.map_some', Option.some.injEq, Prod.mk.injEq] at h
        obtain ⟨rfl, rfl, rfl⟩ := h
        obtain ⟨he, hi, hf⟩ := ih i' f' a' hc
        refine ⟨by rw [List.cons_append, ← he], ?_, hf⟩
        intro z hz
        rcases List.mem_cons.mp hz with rfl | hz'
        · exact hx
        · exact hi z hz'
    next hx =>
      simp only [Option.some.injEq, Prod.mk.injEq] at h
      obtain ⟨rfl, rfl, rfl⟩ := h
      exact ⟨rfl, by simp, hx⟩

theorem escSplit_complete : ∀ i f a, (∀ x ∈ i, 32 ≤ x ∧ x ≤ 47) → ¬(32 ≤ f ∧ f ≤ 47) →
    escSplit (i ++ f :: a) = some (i, f, a) := by
  intro i
  induction i with
  | nil => intro f a _ hf; simp [escSplit, hf]
  | cons x i' ih =>
    intro f a hi hf
    have hx : 32 ≤ x ∧ x ≤ 47 := hi x (List.mem_cons_self x i')
    simp only [List.cons_append, escSplit, List.append_eq, if_pos hx,
      ih f a (fun z hz => hi z (List.mem_cons_of_mem x hz)) hf, Option.map_some']

theorem escSplit_append (l ys : List Nat) (i f a) (h : escSplit l = some (i, f, a)) :
    escSplit (l ++ ys) = some (i, f, a ++ ys) := by
  obtain ⟨he, hi, hf⟩ := escSplit_eq_strong l i f a h
  subst he
  rw [List.append_assoc, List.cons_append]
  exact escSplit_complete i f (a ++ ys) hi hf

theorem oscSplit_eq : ∀ l b a, oscSplit l = some (b, a) → l = b ++ a ∧ b ≠ [] := by
  intro l
  induction l with
  | nil => intro b a h; simp [oscSplit] at h
  | cons x xs ih =>
    intro b a h
    unfold oscSplit at h
    by_cases h7 : x = 7
    · rw [if_pos h7] at h
      simp only [Option.some.injEq, Prod.mk.injEq] at h
      obtain ⟨rfl, rfl⟩ := h
      exact ⟨rfl, by simp⟩
    · rw [if_neg h7] at h
      by_cases h27 : x = 27
      · rw [if_pos h27] at h
        cases xs with
        | nil => simp only [] at h; exact absurd h (by simp)
        | cons y ys =>
          simp only [] at h
          by_cases h92 : y = 92
          · rw [if_pos h92] at h
            simp only [Option.some.injEq, Prod.mk.injEq] at h
            obtain ⟨rfl, rfl⟩ := h
            exact ⟨rfl, by simp⟩
          · rw [if_neg h92] at h
            cases hc : oscSplit (y :: ys) with
            | none => rw [hc] at h; simp at h
            | some ba =>
              obtain ⟨b', a'⟩ := ba
              rw [hc] at h
              simp only [Option.map_some', Option.some.injEq, Prod.mk.injEq] at h
              obtain ⟨rfl, rfl⟩ := h
              obtain ⟨he, hne⟩ := ih b' a' hc
              exact ⟨by rw [List.cons_append, ← he], by simp⟩
      · rw [if_neg h27] at h
        cases hc : oscSplit xs with
        | none => rw [hc] at h; simp at h
        | some ba =>
          obtain ⟨b', a'⟩ := ba
          rw [hc] at h
          simp only [Option.map_some', Option.some.injEq, Prod.mk.injEq] at h
          obtain ⟨rfl, rfl⟩ := h
          obtain ⟨he, hne⟩ := ih b' a' hc
          exact ⟨by rw [List.cons_append, ← he], by simp⟩

theorem oscSplit_append : ∀ l ys b a, oscSplit l = some (b, a) →
    oscSplit (l ++ ys) = some (b, a ++ ys) := by
  intro l
  induction l with
  | nil => intro ys b a h; simp [oscSplit] at h
  | cons x xs ih =>
    intro ys b a h
    rw [List.cons_append]
    unfold oscSplit at h ⊢
    by_cases h7 : x = 7
    · rw [if_pos h7] at h ⊢
      simp only [Option.some.injEq, Prod.mk.injEq] at h
      obtain ⟨rfl, rfl⟩ := h
      rfl
    · rw [if_neg h7] at h ⊢
      by_cases h27 : x = 27
      · rw [if_pos h27] at h ⊢
        cases xs with
        | nil => simp only [] at h; exact absurd h (by simp)
        | cons y ys' =>
          rw [List.cons_append]
          simp only [] at h ⊢
          by_cases h92 : y = 92
          · rw [if_pos h92] at h ⊢
            simp only [Option.some.injEq, Prod.mk.injEq] at h
            obtain ⟨rfl, rfl⟩ := h
            rfl
          · rw [if_neg h92] at h ⊢
            cases hc : oscSplit (y :: ys') with
            | none => rw [hc] at h; simp at h
            | some ba =>
              obtain ⟨b', a'⟩ := ba
              rw [hc] at h
              simp only [Option.map_some', Option.some.injEq, Prod.mk.injEq] at h
              obtain ⟨rfl, rfl⟩ := h
              have hih := ih ys b' a' hc
              rw [List.cons_append] at hih
              rw [hih]
              rfl
      · rw [if_neg h27] at h ⊢
        cases hc : oscSplit xs with
        | none => rw [hc] at h; simp at h
        | some ba =>
          obtain ⟨b', a'⟩ := ba
          rw [hc] at h
          simp only [Option.map_some', Option.some.injEq, Prod.mk.injEq] at h
          obtain ⟨rfl, rfl⟩ := h
          rw [ih ys b' a' hc]
          rfl

theorem stSplit_eq : ∀ l b a, stSplit l = some (b, a) → l = b ++ a ∧ b ≠ [] := by
  intro l
  induction l with
  | nil => intro b a h; simp [stSplit] at h
  | cons x xs ih =>
    intro b a h
    cases xs with
    | nil => simp [stSplit] at h
    | cons y ys =>
      unfold stSplit at h
      by_cases hxy : x = 27 ∧ y = 92
      · rw [if_pos hxy] at h
        simp only [Option.some.injEq, Prod.mk.injEq] at h
        obtain ⟨rfl, rfl⟩ := h
        exact ⟨rfl, by simp⟩
      · rw [if_neg hxy] at h
        cases hc : stSplit (y :: ys) with
        | none => rw [hc] at h; simp at h
        | some ba =>
          obtain ⟨b', a'⟩ := ba
          rw [hc] at h
          simp only [Option.map_some', Option.some.injEq, Prod.mk.injEq] at h
          obtain ⟨rfl, rfl⟩ := h
          obtain ⟨he, hne⟩ := ih b' a' hc
          exact ⟨by rw [List.cons_append, ← he], by simp⟩

theorem stSplit_append : ∀ l ys b a, stSplit l = some (b, a) →
    stSplit (l ++ ys) = some (b, a ++ ys) := by
  intro l
  induction l with
  | nil => intro ys b a h; simp [stSplit] at h
  | cons x xs ih =>
    intro ys b a h
    cases xs with
    | nil => simp [stSplit] at h
    | cons y ys' =>
      rw [List.cons_append, List.cons_append]
      unfold stSplit at h ⊢
      by_cases hxy : x = 27 ∧ y = 92
      · rw [if_pos hxy] at h ⊢
        simp only [Option.some.injEq, Prod.mk.injEq] at h
        obtain ⟨rfl, rfl⟩ := h
        rfl
      · rw [if_neg hxy] at h ⊢
        cases hc : stSplit (y :: ys') with
        | none => rw [hc] at h; simp at h
        | some ba =>
          obtain ⟨b', a'⟩ := ba
          rw [hc] at h
          simp only [Option.map_some', Option.some.injEq, Prod.mk.injEq] at h
          obtain ⟨rfl, rfl⟩ := h
          have hih := ih ys b' a' hc
          rw [List.cons_append] at hih
          rw [hih]
          rfl

/-! ### The token step function -/

theorem scanStep_shape (cpr buf : List Nat) (t : List Nat × List (List Nat)) (after : List Nat)
    (h : scanStep cpr buf = some (t, after)) :
    ∃ cons, cons ≠ [] ∧ buf = cons ++ after := by
  cases buf with
  | nil => simp [scanStep] at h
  | cons b rest =>
    unfold scanStep at h
    simp only [] at h
    by_cases hb : b = 27
    · rw [if_pos hb] at h
      cases rest with
      | nil => exact absurd h (by simp)
      | cons c rest2 =>
        simp only [] at h
        by_cases hc : c = 91
        · rw [if_pos hc] at h
          cases hcsi : csiSplit rest2 with
          | none => rw [hcsi] at h; exact absurd h (by simp)
          | some pfa =>
            obtain ⟨params, fin, after'⟩ := pfa
            rw [hcsi] at h
            simp only [] at h
            have hrest2 := (csiSplit_eq_strong rest2 params fin after' hcsi).1
            have hafter : after' = after := by
              split_ifs at h <;>
                (simp only [Option.some.injEq, Prod.mk.injEq] at h; exact h.2)
            subst hafter
            exact ⟨b :: c :: params ++ [fin], by simp, by simp [hrest2]⟩
        · rw [if_neg hc] at h
          by_cases hc2 : c = 93
          · rw [if_pos hc2] at h
            cases hosc : oscSplit rest2 with
            | none => rw [hosc] at h; exact absurd h (by simp)
            | some ba =>
              obtain ⟨body, after'⟩ := ba
              rw [hosc] at h
              simp only [Option.some.injEq, Prod.mk.injEq] at h
              have hrest2 := (oscSplit_eq rest2 body after' hosc).1
              refine ⟨b :: c :: body, by simp, ?_⟩
              rw [← h.2]
              simp [hrest2]
          · rw [if_neg hc2] at h
            by_cases hc3 : c = 80 ∨ c = 88 ∨ c = 94 ∨ c = 95
            · rw [if_pos hc3] at h
              cases hst : stSplit rest2 with
              | none => rw [hst] at h; exact absurd h (by simp)
              | some ba =>
                obtain ⟨body, after'⟩ := ba
                rw [hst] at h
                simp only [Option.some.injEq, Prod.mk.injEq] at h
                have hrest2 := (stSplit_eq rest2 body after' hst).1
                refine ⟨b :: c :: body, by simp, ?_⟩
                rw [← h.2]
                simp [hrest2]
            · rw [if_neg hc3] at h
              cases hesc : escSplit (c :: rest2) with
              | none => rw [hesc] at h; exact absurd h (by simp)
              | some ifa =>
                obtain ⟨inter, fin, after'⟩ := ifa
                rw [hesc] at h
                simp only [Option.some.injEq, Prod.mk.injEq] at h
                have hrest := (escSplit_eq_strong (c :: rest2) inter fin after' hesc).1
                refine ⟨b :: inter ++ [fin], by simp, ?_⟩
                rw [← h.2]
                simp [hrest]
    · rw [if_neg hb] at h
      simp only [Option.some.injEq, Prod.mk.injEq] at h
      refine ⟨[b], by simp, ?_⟩
      rw [← h.2]
      rfl

theorem scanStep_append (cpr xs ys : List Nat) (t : List Nat × List (List Nat))
    (after : List Nat) (h : scanStep cpr xs = some (t, after)) :
    scanStep cpr (xs ++ ys) = some (t, after ++ ys) := by
  cases xs with
  | nil => simp [scanStep] at h
  | cons b rest =>
    rw [List.cons_append]
    unfold scanStep at h ⊢
    simp only [] at h ⊢
    by_cases hb : b = 27
    · rw [if_pos hb] at h ⊢
      cases rest with
      | nil => exact absurd h (by simp)
      | cons c rest2 =>
        rw [List.cons_append]
        simp only [] at h ⊢
        by_cases hc : c = 91
        · rw [if_pos hc] at h ⊢
          cases hcsi : csiSplit rest2 with
          | none => rw [hcsi] at h; exact absurd h (by simp)
          | some pfa =>
            obtain ⟨params, fin, after'⟩ := pfa
            rw [hcsi] at h
            rw [csiSplit_append rest2 ys params fin after' hcsi]
            simp only [] at h ⊢
            split_ifs at h ⊢ <;>
              (simp only [Option.some.injEq, Prod.mk.injEq] at h ⊢;
               exact ⟨h.1, by rw [h.2]⟩)
        · rw [if_neg hc] at h ⊢
          by_cases hc2 : c = 93
          · rw [if_pos hc2] at h ⊢
            cases hosc : oscSplit rest2 with
            | none => rw [hosc] at h; exact absurd h (by simp)
            | some ba =>
              obtain ⟨body, after'⟩ := ba
              rw [hosc] at h
              rw [oscSplit_append rest2 ys body after' hosc]
              simp only [Option.some.injEq, Prod.mk.injEq] at h ⊢
              exact ⟨h.1, by rw [h.2]⟩
          · rw [if_neg hc2] at h ⊢
            by_cases hc3 : c = 80 ∨ c = 88 ∨ c = 94 ∨ c = 95
            · rw [if_pos hc3] at h ⊢
              cases hst : stSplit rest2 with
              | none => rw [hst] at h; exact absurd h (by simp)
              | some ba =>
                obtain ⟨body, after'⟩ := ba
                rw [hst] at h
                rw [stSplit_append rest2 ys body after' hst]
                simp only [Option.some.injEq, Prod.mk.injEq] at h ⊢
                exact ⟨h.1, by rw [h.2]⟩
            · rw [if_neg hc3] at h ⊢
              cases hesc : escSplit (c :: rest2) with
              | none => rw [hesc] at h; exact absurd h (by simp)
              | some ifa =>
                obtain ⟨inter, fin, after'⟩ := ifa
                rw [hesc] at h
                have := escSplit_append (c :: rest2) ys inter fin after' hesc
                rw [List.cons_append] at this
                rw [this]
                simp only [Option.some.injEq, Prod.mk.injEq] at h ⊢
                exact ⟨h.1, by rw [h.2]⟩
    · rw [if_neg hb] at h ⊢
      simp only [Option.some.injEq, Prod.mk.injEq] at h ⊢
      exact ⟨h.1, by rw [h.2]⟩

theorem scanStep_none_iff (cpr buf : List Nat) :
    scanStep cpr buf = none ↔ pendingIncomplete buf := by
  cases buf with
  | nil => simp [scanStep, pendingIncomplete]
  | cons b rest =>
    unfold scanStep pendingIncomplete
    simp only []
    by_cases hb : b = 27
    · subst hb
      simp only [reduceIte]
      cases rest with
      | nil => simp
      | cons c rest2 =>
        simp only []
        by_cases hc : c = 91
        · subst hc
          simp only [reduceIte]
          cases hcsi : csiSplit rest2 with
          | none => simp
          | some pfa =>
            obtain ⟨params, fin, after'⟩ := pfa
            simp only []
            constructor
            · intro hcontra
              split_ifs at hcontra
            · intro hcontra
              exact absurd hcontra.2 (by simp)
        · by_cases hc2 : c = 93
          · subst hc2
            simp only [if_neg hc, reduceIte]
            cases hosc : oscSplit rest2 with
            | none => simp
            | some ba => simp
          · by_cases hc3 : c = 80 ∨ c = 88 ∨ c = 94 ∨ c = 95
            · simp only [if_neg hc, if_neg hc2, if_pos hc3]
              cases hst : stSplit rest2 with
              | none => simp
              | some ba => simp
            · simp only [if_neg hc, if_neg hc2, if_neg hc3]
              cases hesc : escSplit (c :: rest2) with
              | none => simp
              | some ifa => simp
    · rw [if_neg hb]
      simp [hb]

/-! ### The fuel-indexed scanner -/

theorem scanF_nil (cpr : List Nat) : ∀ f, scanF cpr f [] = ([], [], []) := by
  intro f
  cases f with
  | zero => rfl
  | succ f' => simp [scanF, scanStep]

theorem scanStep_after_length (cpr buf : List Nat) (t : List Nat × List (List Nat))
    (after : List Nat) (h : scanStep cpr buf = some (t, after)) :
    after.length < buf.length := by
  obtain ⟨cons, hne, heq⟩ := scanStep_shape cpr buf t after h
  subst heq
  simp only [List.length_append]
  have : 0 < cons.length := List.length_pos.mpr hne
  omega

theorem scanF_fuel_irrel (cpr : List Nat) :
    ∀ f g buf, buf.length ≤ f → buf.length ≤ g → scanF cpr f buf = scanF cpr g buf := by
  intro f
  induction f with
  | zero =>
    intro g buf hf _
    have : buf = [] := List.length_eq_zero.mp (Nat.le_zero.mp hf)
    subst this
    rw [scanF_nil, scanF_nil]
  | succ f' ih =>
    intro g buf hf hg
    cases buf with
    | nil => rw [scanF_nil, scanF_nil]
    | cons b rest =>
      have hg1 : 0 < g := lt_of_lt_of_le (by simp) hg
      obtain ⟨g', rfl⟩ : ∃ g', g = g' + 1 := ⟨g - 1, by omega⟩
      show scanF cpr (f' + 1) (b :: rest) = scanF cpr (g' + 1) (b :: rest)
      simp only [scanF]
      cases hs : scanStep cpr (b :: rest) with
      | none => rfl
      | some ta =>
        obtain ⟨⟨o, r⟩, after⟩ := ta
        have hlen := scanStep_after_length cpr (b :: rest) (o, r) after hs
        simp only [List.length_cons] at hlen hf hg
        simp only []
        rw [ih g' after (by omega) (by omega)]

theorem vtScan_nil (cpr : List Nat) : vtScan cpr [] = ([], [], []) := rfl

theorem vtScan_none (cpr buf : List Nat) (h : scanStep cpr buf = none) :
    vtScan cpr buf = ([], [], buf) := by
  cases buf with
  | nil => rfl
  | cons b rest =>
    unfold vtScan
    simp only [List.length_cons, scanF, h]

theorem vtScan_step (cpr buf : List Nat) (o : List Nat) (r : List (List Nat))
    (after : List Nat) (h : scanStep cpr buf = some ((o, r), after)) :
    vtScan cpr buf = (o ++ (vtScan cpr after).1, r ++ (vtScan cpr after).2.1,
      (vtScan cpr after).2.2) := by
  have hlen := scanStep_after_length cpr buf (o, r) after h
  cases buf with
  | nil => simp [scanStep] at h
  | cons b rest =>
    unfold vtScan
    simp only [List.length_cons, scanF, h]
    simp only [List.length_cons] at hlen
    rw [scanF_fuel_irrel cpr rest.length after.length after (by omega) (le_refl _)]

theorem vtScan_pending (cpr : List Nat) :
    ∀ n buf, buf.length ≤ n → pendingIncomplete (vtScan cpr buf).2.2 := by
  intro n
  induction n with
  | zero =>
    intro buf hb
    have : buf = [] := List.length_eq_zero.mp (Nat.le_zero.mp hb)
    subst this
    rw [vtScan_nil]
    trivial
  | succ n ih =>
    intro buf hb
    cases hs : scanStep cpr buf with
    | none =>
      rw [vtScan_none cpr buf hs]
      exact (scanStep_none_iff cpr buf).mp hs
    | some ta =>
      obtain ⟨⟨o, r⟩, after⟩ := ta
      rw [vtScan_step cpr buf o r after hs]
      have hlen := scanStep_after_length cpr buf (o, r) after hs
      exact ih after (by omega)

theorem pendingIncomplete_scan (cpr buf : List Nat) :
    pendingIncomplete (vtScan cpr buf).2.2 :=
  vtScan_pending cpr buf.length buf (le_refl _)

theorem incomplete_vtScan (cpr p : List Nat) (h : pendingIncomplete p) :
    vtScan cpr p = ([], [], p) :=
  vtScan_none cpr p ((scanStep_none_iff cpr p).mpr h)

theorem vtScan_append_fuel (cpr : List Nat) :
    ∀ n xs ys, xs.length ≤ n →
      vtScan cpr (xs ++ ys)
        = ((vtScan cpr xs).1 ++ (vtScan cpr ((vtScan cpr xs).2.2 ++ ys)).1,
           (vtScan cpr xs).2.1 ++ (vtScan cpr ((vtScan cpr xs).2.2 ++ ys)).2.1,
           (vtScan cpr ((vtScan cpr xs).2.2 ++ ys)).2.2) := by
  intro n
  induction n with
  | zero =>
    intro xs ys hx
    have : xs = [] := List.length_eq_zero.mp (Nat.le_zero.mp hx)
    subst this
    rw [vtScan_nil]
    rfl
  | succ n ih =>
    intro xs ys hx
    cases hs : scanStep cpr xs with
    | none =>
      rw [vtScan_none cpr xs hs]
      rfl
    | some ta =>
      obtain ⟨⟨o, r⟩, after⟩ := ta
      have hstep2 := scanStep_append cpr xs ys (o, r) after hs
      have hlen := scanStep_after_length cpr xs (o, r) after hs
      rw [vtScan_step cpr xs o r after hs,
        vtScan_step cpr (xs ++ ys) o r (after ++ ys) hstep2,
        ih after ys (by omega)]
      simp [List.append_assoc]

theorem vtScan_append (cpr xs ys : List Nat) :
    vtScan cpr (xs ++ ys)
      = ((vtScan cpr xs).1 ++ (vtScan cpr ((vtScan cpr xs).2.2 ++ ys)).1,
         (vtScan cpr xs).2.1 ++ (vtScan cpr ((vtScan cpr xs).2.2 ++ ys)).2.1,
         (vtScan cpr ((vtScan cpr xs).2.2 ++ ys)).2.2) :=
  vtScan_append_fuel cpr xs.length xs ys (le_refl _)

theorem runChunks_eq (env : Option (Nat × Nat)) :
    ∀ chunks pending, pendingIncomplete pending →
      runChunks env pending chunks
        = vtScan (cursor_position_response env) (pending ++ chunks.flatten) := by
  intro chunks
  induction chunks with
  | nil =>
    intro pending h
    simp only [runChunks, List.flatten_nil, List.append_nil]
    rw [incomplete_vtScan _ pending h]
  | cons c cs ih =>
    intro pending h
    simp only [runChunks, List.flatten_cons, vtProcess]
    rw [ih _ (pendingIncomplete_scan _ _)]
    rw [← List.append_assoc]
    rw [vtScan_append (cursor_position_response env) (pending ++ c) cs.flatten]

/-! ### Which responses can be emitted -/

theorem scanStep_resps (cpr buf : List Nat) (o : List Nat) (r : List (List Nat))
    (after : List Nat) (h : scanStep cpr buf = some ((o, r), after)) :
    r = [] ∨ (r = [cpr] ∧ buf = qCPR ++ after) ∨ r = [dsr0Response] ∨ r = [da1Response] := by
  cases buf with
  | nil => simp [scanStep] at h
  | cons b rest =>
    unfold scanStep at h
    simp only [] at h
    by_cases hb : b = 27
    · rw [if_pos hb] at h
      cases rest with
      | nil => exact absurd h (by simp)
      | cons c rest2 =>
        simp only [] at h
        by_cases hc : c = 91
        · rw [if_pos hc] at h
          cases hcsi : csiSplit rest2 with
          | none => rw [hcsi] at h; exact absurd h (by simp)
          | some pfa =>
            obtain ⟨params, fin, after'⟩ := pfa
            rw [hcsi] at h
            simp only [] at h
            have hrest2 := (csiSplit_eq_strong rest2 params fin after' hcsi).1
            split_ifs at h with h1 h2 h3 <;>
              simp only [Option.some.injEq, Prod.mk.injEq] at h
            · refine Or.inr (Or.inl ⟨(h.1.2).symm, ?_⟩)
              have hseq : (27 : Nat) :: 91 :: (params ++ [fin]) = qCPR := h1
              have hp : params = [54] ∧ fin = 110 := by
                have := hseq
                simp only [qCPR, List.cons.injEq] at this
                obtain ⟨-, -, hpf⟩ := this
                cases params with
                | nil => simp at hpf
                | cons p0 ps =>
                  cases ps with
                  | nil =>
                    simp only [List.cons_append, List.nil_append, List.cons.injEq] at hpf
                    exact ⟨by simp [hpf.1], by simpa using hpf.2⟩
                  | cons p1 ps' =>
                    simp only [List.cons_append, List.cons.injEq] at hpf
                    obtain ⟨-, -, hbad⟩ := hpf
                    exact absurd hbad (by simp)
              obtain ⟨hp1, hp2⟩ := hp
              subst hb; subst hc
              rw [← h.2, hrest2, hp1, hp2]
              rfl
            · exact Or.inr (Or.inr (Or.inl (h.1.2).symm))
            · exact Or.inr (Or.inr (Or.inr (h.1.2).symm))
            · exact Or.inl (h.1.2).symm
        · rw [if_neg hc] at h
          by_cases hc2 : c = 93
          · rw [if_pos hc2] at h
            cases hosc : oscSplit rest2 with
            | none => rw [hosc] at h; exact absurd h (by simp)
            | some ba =>
              rw [hosc] at h
              simp only [Option.some.injEq, Prod.mk.injEq] at h
              exact Or.inl (h.1.2).symm
          · rw [if_neg hc2] at h
            by_cases hc3 : c = 80 ∨ c = 88 ∨ c = 94 ∨ c = 95
            · rw [if_pos hc3] at h
              cases hst : stSplit rest2 with
              | none => rw [hst] at h; exact absurd h (by simp)
              | some ba =>
                rw [hst] at h
                simp only [Option.some.injEq, Prod.mk.injEq] at h
                exact Or.inl (h.1.2).symm
            · rw [if_neg hc3] at h
              cases hesc : escSplit (c :: rest2) with
              | none => rw [hesc] at h; exact absurd h (by simp)
              | some ifa =>
                obtain ⟨inter, fin, after'⟩ := ifa
                rw [hesc] at h
                simp only [Option.some.injEq, Prod.mk.injEq] at h
                exact Or.inl (h.1.2).symm
    · rw [if_neg hb] at h
      simp only [Option.some.injEq, Prod.mk.injEq] at h
      exact Or.inl (h.1.2).symm

theorem scanF_resps_mem (cpr : List Nat) :
    ∀ fuel buf resp, resp ∈ (scanF cpr fuel buf).2.1 →
      (resp = cpr ∧ ∃ s tl, buf = s ++ qCPR ++ tl) ∨
        resp = dsr0Response ∨ resp = da1Response := by
  intro fuel
  induction fuel with
  | zero => intro buf resp hm; simp [scanF] at hm
  | succ fuel ih =>
    intro buf resp hm
    cases hs : scanStep cpr buf with
    | none => rw [scanF, hs] at hm; simp at hm
    | some ta =>
      obtain ⟨⟨o, r⟩, after⟩ := ta
      rw [scanF, hs] at hm
      simp only [List.mem_append] at hm
      cases hm with
      | inl hr =>
        rcases scanStep_resps cpr buf o r after hs with h0 | ⟨hq, hbuf⟩ | h0 | h0
        · rw [h0] at hr; simp at hr
        · rw [hq] at hr
          simp only [List.mem_singleton] at hr
          exact Or.inl ⟨hr, [], after, by simpa using hbuf⟩
        · rw [h0] at hr
          simp only [List.mem_singleton] at hr
          exact Or.inr (Or.inl hr)
        · rw [h0] at hr
          simp only [List.mem_singleton] at hr
          exact Or.inr (Or.inr hr)
      | inr hrec =>
        rcases ih after resp hrec with ⟨hcpr, s, tl, hocc⟩ | h0 | h0
        · obtain ⟨cons, -, hbuf⟩ := scanStep_shape cpr buf (o, r) after hs
          exact Or.inl ⟨hcpr, cons ++ s, tl, by rw [hbuf, hocc]; simp⟩
        · exact Or.inr (Or.inl h0)
        · exact Or.inr (Or.inr h0)

/-! ### Escape-free segments and the recognized query -/

theorem scanStep_plain (cpr : List Nat) (b : Nat) (rest : List Nat) (hb : ¬ b = 27) :
    scanStep cpr (b :: rest) = some (([b], []), rest) := by
  unfold scanStep
  simp only [if_neg hb]

theorem vtScan_escFree (cpr : List Nat) :
    ∀ u w, (∀ b ∈ u, ¬ b = 27) →
      vtScan cpr (u ++ w)
        = (u ++ (vtScan cpr w).1, (vtScan cpr w).2.1, (vtScan cpr w).2.2) := by
  intro u
  induction u with
  | nil => intro w _; simp
  | cons b u' ih =>
    intro w hu
    have hb : ¬ b = 27 := hu b (List.mem_cons_self b u')
    rw [List.cons_append,
      vtScan_step cpr (b :: (u' ++ w)) [b] [] (u' ++ w) (scanStep_plain cpr b (u' ++ w) hb),
      ih w (fun z hz => hu z (List.mem_cons_of_mem b hz))]
    simp

theorem vtScan_escFree_all (cpr : List Nat) (v : List Nat) (hv : ∀ b ∈ v, ¬ b = 27) :
    vtScan cpr v = (v, [], []) := by
  have h := vtScan_escFree cpr v [] hv
  rw [List.append_nil] at h
  rw [h, vtScan_nil]
  simp

theorem scanStep_qCPR (cpr v : List Nat) :
    scanStep cpr (qCPR ++ v) = some (([], [cpr]), v) := by
  have hcsi : csiSplit (54 :: 110 :: v) = some ([54], 110, v) :=
    csiSplit_complete [54] 110 v (by decide) (by decide)
  show scanStep cpr (27 :: 91 :: 54 :: 110 :: v) = some (([], [cpr]), v)
  unfold scanStep
  simp [hcsi, qCPR]

theorem vtScan_qCPR (cpr v : List Nat) :
    vtScan cpr (qCPR ++ v)
      = ((vtScan cpr v).1, cpr :: (vtScan cpr v).2.1, (vtScan cpr v).2.2) := by
  rw [vtScan_step cpr (qCPR ++ v) [] [cpr] v (scanStep_qCPR cpr v)]
  simp

/-! ### Substring counting -/

theorem substrCount_zero_no_occ (l pat : List Nat) (h : substrCount l pat = 0) :
    ¬ ∃ s tl, l = s ++ pat ++ tl := by
  rintro ⟨s, tl, rfl⟩
  have hall := List.countP_eq_zero.mp h
  have hmem : s.length ∈ List.range ((s ++ pat ++ tl).length + 1) := by
    simp [List.length_append]
    omega
  have := hall s.length hmem
  apply this
  have hdrop : (s ++ pat ++ tl).drop s.length = pat ++ tl := by
    rw [List.append_assoc]
    exact List.drop_left s (pat ++ tl)
  rw [hdrop]
  simp [List.take_left]

theorem no27_substrCount_qCPR (l : List Nat) (h : ∀ b ∈ l, ¬ b = 27) :
    substrCount l qCPR = 0 := by
  apply List.countP_eq_zero.mpr
  intro i _
  simp only [beq_iff_eq]
  intro hcontra
  have h27 : (27 : Nat) ∈ (l.drop i).take qCPR.length := by
    rw [hcontra]
    simp [qCPR]
  have : (27 : Nat) ∈ l := List.drop_subset i l (List.take_subset _ _ h27)
  exact h 27 this rfl

/-! ### Shape of the cursor-position response -/

theorem cursor_position_response_form (env : Option (Nat × Nat)) :
    ∃ r c, 1 ≤ r ∧ 1 ≤ c ∧
      cursor_position_response env
        = [27, 91] ++ natDecimalBytes r ++ [59] ++ natDecimalBytes c ++ [82] := by
  cases env with
  | none => exact ⟨1, 1, le_refl 1, le_refl 1, by decide⟩
  | some cr =>
    obtain ⟨col, row⟩ := cr
    refine ⟨satAddOne16 row, satAddOne16 col, ?_, ?_, ?_⟩
    · unfold satAddOne16; omega
    · unfold satAddOne16; omega
    · simp [cursor_position_response]

theorem isCPR_cursor (env : Option (Nat × Nat)) :
    isCPR (cursor_position_response env) = true := by
  have hform := cursor_position_response_form env
  obtain ⟨r, c, -, -, heq⟩ := hform
  rw [isCPR, heq]
  have : [27, 91] ++ natDecimalBytes r ++ [59] ++ natDecimalBytes c ++ [82]
      = ([27, 91] ++ natDecimalBytes r ++ [59] ++ natDecimalBytes c) ++ [82] := by
    simp [List.append_assoc]
  rw [this, List.getLast?_concat]
  simp

/-! ### Claim theorems for the responder -/

/-- C1: for every cursor environment and every list of byte chunks, feeding
the chunks through `process` one at a time (from the initial empty pending
buffer) produces the same filtered output, the same responses in the same
order, and the same final pending buffer as a single `process` call on the
concatenated stream. -/
theorem c1_chunk_size_independence (env : Option (Nat × Nat)) (chunks : List (List Nat)) :
    runChunks env [] chunks = vtProcess env [] chunks.flatten := by
  have h := runChunks_eq env chunks [] trivial
  simpa [vtProcess] using h

/-- C10: after any `process` call (whatever the prior pending buffer), and
after any sequence of `process` calls from the initial empty state, the
pending buffer is either empty or starts with the escape byte followed by a
sequence that is still incomplete for its family (no CSI final byte, no OSC
BEL/ST terminator, no ST terminator, no ESC final byte). -/
theorem c10_pending_invariant (env : Option (Nat × Nat)) (pending chunk : List Nat)
    (chunks : List (List Nat)) :
    pendingIncomplete (vtProcess env pending chunk).2.2 ∧
      pendingIncomplete (runChunks env [] chunks).2.2 := by
  constructor
  · exact pendingIncomplete_scan _ _
  · rw [runChunks_eq env chunks [] trivial]
    exact pendingIncomplete_scan _ _

/-- C8: `finish` flushes exactly the bytes preceding the first escape byte,
discards the remainder, leaves the pending buffer empty, and returns
`Ok(())`. -/
theorem c8_finish_flush (pending : List Nat) :
    (vtFinish pending).1 = pending.takeWhile (fun b => !(b == 27)) ∧
      (vtFinish pending).2.1 = [] ∧ (vtFinish pending).2.2 = some () := by
  induction pending with
  | nil => exact ⟨rfl, rfl, rfl⟩
  | cons b rest ih =>
    by_cases hb : b = 27
    · subst hb
      refine ⟨?_, rfl, rfl⟩
      simp [vtFinish, listPosition, List.takeWhile_cons]
    · have hbeq : (b == 27) = false := by simp [hb]
      have htw : (b :: rest).takeWhile (fun x => !(x == 27))
          = b :: rest.takeWhile (fun x => !(x == 27)) := by
        simp [List.takeWhile_cons, hbeq]
      cases hp : listPosition (fun x => x == 27) rest with
      | none =>
        have hfin : vtFinish (b :: rest)
            = (b :: rest, [], some ()) := by
          simp [vtFinish, listPosition, hbeq, hp]
        rw [hfin, htw]
        refine ⟨?_, rfl, rfl⟩
        obtain ⟨ih1, -, -⟩ := ih
        rw [vtFinish, hp] at ih1
        by_cases hrest : rest = []
        · subst hrest; rfl
        · simp only [if_neg hrest] at ih1
          simp [← ih1]
      | some p =>
        have hfin : vtFinish (b :: rest)
            = (b :: rest.take p, [], some ()) := by
          simp [vtFinish, listPosition, hbeq, hp]
        rw [hfin, htw]
        refine ⟨?_, rfl, rfl⟩
        obtain ⟨ih1, -, -⟩ := ih
        rw [vtFinish, hp] at ih1
        by_cases hp0 : 0 < p
        · simp only [if_pos hp0] at ih1
          simp [ih1]
        · have : p = 0 := by omega
          subst this
          simp only [if_neg hp0] at ih1
          simp [← ih1]

/-- C2 (amended): if the query `ESC[6n` is injected between a chunk `u` of
escape-free bytes and a tail `v` in which the query bytes do not occur,
then exactly one response ending in the CSI final byte `R` is emitted,
namely the cursor-position report, whose shape is `ESC[{r};{c}R` with
`r, c ≥ 1`; the filtered output is `u` followed by the filtered tail, and
when `v` is itself escape-free the output is exactly `u ++ v`, which does
not contain the query bytes. -/
theorem c2_amended_cpr_query (env : Option (Nat × Nat)) (u v : List Nat)
    (hu : ∀ b ∈ u, ¬ b = 27) (hv : substrCount v qCPR = 0) :
    (vtProcess env [] (u ++ qCPR ++ v)).1 = u ++ (vtProcess env [] v).1 ∧
    List.filter isCPR (vtProcess env [] (u ++ qCPR ++ v)).2.1
      = [cursor_position_response env] ∧
    (∃ r c, 1 ≤ r ∧ 1 ≤ c ∧
      cursor_position_response env
        = [27, 91] ++ natDecimalBytes r ++ [59] ++ natDecimalBytes c ++ [82]) ∧
    ((∀ b ∈ v, ¬ b = 27) →
      (vtProcess env [] (u ++ qCPR ++ v)).1 = u ++ v ∧
        substrCount (u ++ v) qCPR = 0) := by
  have hscan : vtScan (cursor_position_response env) (u ++ qCPR ++ v)
      = (u ++ (vtScan (cursor_position_response env) v).1,
         cursor_position_response env :: (vtScan (cursor_position_response env) v).2.1,
         (vtScan (cursor_position_response env) v).2.2) := by
    rw [List.append_assoc, vtScan_escFree (cursor_position_response env) u (qCPR ++ v) hu,
      vtScan_qCPR]
  have hproc : vtProcess env [] (u ++ qCPR ++ v)
      = (u ++ (vtScan (cursor_position_response env) v).1,
         cursor_position_response env :: (vtScan (cursor_position_response env) v).2.1,
         (vtScan (cursor_position_response env) v).2.2) := by
    rw [vtProcess, List.nil_append, hscan]
  have hfilter_nil :
      List.filter isCPR (vtScan (cursor_position_response env) v).2.1 = [] := by
    rw [List.filter_eq_nil_iff]
    intro resp hresp
    rcases scanF_resps_mem (cursor_position_response env) v.length v resp hresp with
      ⟨-, s, tl, hocc⟩ | h0 | h0
    · exact absurd ⟨s, tl, hocc⟩ (substrCount_zero_no_occ v qCPR hv)
    · rw [h0]; decide
    · rw [h0]; decide
  refine ⟨?_, ?_, cursor_position_response_form env, ?_⟩
  · rw [hproc, vtProcess, List.nil_append]
  · rw [hproc]
    simp only [List.filter_cons, isCPR_cursor env, hfilter_nil]
    simp
  · intro hv27
    have hvscan := vtScan_escFree_all (cursor_position_response env) v hv27
    constructor
    · rw [hproc, hvscan]
    · apply no27_substrCount_qCPR
      intro b hb
      rcases List.mem_append.mp hb with h | h
      · exact hu b h
      · exact hv27 b h

/-- Witness for C2 (amended) at a concrete input: `u = "hi"`, `v = "!"`,
cursor at column 3, row 7. -/
theorem c2_amended_cpr_query_witness :
    (∀ b ∈ [104, 105], ¬ b = 27) ∧ substrCount [33] qCPR = 0 ∧
    ((vtProcess (some (3, 7)) [] ([104, 105] ++ qCPR ++ [33])).1
        = [104, 105] ++ (vtProcess (some (3, 7)) [] [33]).1 ∧
      List.filter isCPR (vtProcess (some (3, 7)) [] ([104, 105] ++ qCPR ++ [33])).2.1
        = [cursor_position_response (some (3, 7))] ∧
      (∃ r c, 1 ≤ r ∧ 1 ≤ c ∧
        cursor_position_response (some (3, 7))
          = [27, 91] ++ natDecimalBytes r ++ [59] ++ natDecimalBytes c ++ [82]) ∧
      ((∀ b ∈ [33], ¬ b = 27) →
        (vtProcess (some (3, 7)) [] ([104, 105] ++ qCPR ++ [33])).1 = [104, 105] ++ [33] ∧
          substrCount ([104, 105] ++ [33]) qCPR = 0)) :=
  ⟨by decide, by decide,
    c2_amended_cpr_query (some (3, 7)) [104, 105] [33] (by decide) (by decide)⟩

/-- Counterexample to C2 as stated: in the stream
`ESC ] ESC [ 6 n BEL` the query bytes occur exactly once (inside an OSC
body), yet no response at all is emitted and the query bytes remain in the
filtered output. -/
theorem c2_counterexample :
    substrCount [27, 93, 27, 91, 54, 110, 7] qCPR = 1 ∧
    (vtProcess none [] [27, 93, 27, 91, 54, 110, 7]).2.1 = [] ∧
    substrCount (vtProcess none [] [27, 93, 27, 91, 54, 110, 7]).1 qCPR = 1 := by
  decide

/-! ### Claim theorems for the chat overlay -/

/-- C3: the code propagates an LLM failure.  `submitLine` models the
Enter branch of `chat_mode`; when the blocking LLM call fails, the `?`
operator at chat.rs:354 returns the error from `chat_mode` instead of
displaying it, so the overlay exits with the failure for every prior
state, history and input line (the claim describes the specified
behavior; this theorem documents the divergence of the code). -/
theorem c3_llm_failure_propagates (lang : Language) (cols maxRows : Nat)
    (st : OverlayState) (history : List ChatMessage) (line e : List Char) :
    submitLine lang cols maxRows st history line (Except.error e) = Except.error e := rfl

/-- Counterexample to C4 as stated: the empty text occupies one row, not
`ceil(0 / cols) = 0`, because the code takes `width.max(1)`. -/
theorem c4_counterexample :
    wrap_rows [] 5 = 1 ∧ (approx_display_width [] + 5 - 1) / 5 = 0 := by decide

/-- C4 (amended): for `cols > 0`, `wrap_rows` equals
`ceil(displayWidth / cols)` whenever the display width is positive, and
equals `1` (one row for an empty line) when the display width is zero;
for `cols = 0` it equals `1`. -/
theorem c4_wrap_rows_ceil (s : List Char) (cols : Nat) (h : 0 < cols) :
    (1 ≤ approx_display_width s →
      wrap_rows s cols = (approx_display_width s + cols - 1) / cols) ∧
    (approx_display_width s = 0 → wrap_rows s cols = 1) ∧
    wrap_rows s 0 = 1 := by
  refine ⟨?_, ?_, by simp [wrap_rows]⟩
  · intro hw
    unfold wrap_rows
    rw [if_neg (by omega), Nat.max_eq_left hw]
  · intro hw
    unfold wrap_rows
    rw [if_neg (by omega), hw]
    have hm : max 0 1 = 1 := rfl
    rw [hm]
    have h1 : 1 + cols - 1 = cols := by omega
    rw [h1, Nat.div_self h]

/-- Witness for C4 (amended) at `s = "ab"`, `cols = 3`. -/
theorem c4_wrap_rows_ceil_witness :
    0 < 3 ∧
    ((1 ≤ approx_display_width ['a', 'b'] →
        wrap_rows ['a', 'b'] 3 = (approx_display_width ['a', 'b'] + 3 - 1) / 3) ∧
      (approx_display_width ['a', 'b'] = 0 → wrap_rows ['a', 'b'] 3 = 1) ∧
      wrap_rows ['a', 'b'] 0 = 1) :=
  ⟨by decide, c4_wrap_rows_ceil ['a', 'b'] 3 (by decide)⟩

/-- Counterexample to C9 as stated: accepting the command `ls` writes the
carriage return first and then the command bytes, not the command bytes
followed by the carriage return. -/
theorem c9_counterexample :
    (chatAcceptWrites (some ['l', 's'])).flatten = [13, 108, 115] ∧
      (chatAcceptWrites (some ['l', 's'])).flatten ≠ strUtf8 ['l', 's'] ++ [13] := by
  decide

/-- C9 (amended): when the overlay exits via the accept hotkey with a
command, the caller writes a carriage return (0x0D) into the PTY first
and then exactly the command's UTF-8 bytes, with no trailing carriage
return; when the overlay exits via cancel, only the carriage return is
written and no command bytes. -/
theorem c9_accept_injection (cmd : List Char) :
    (chatAcceptWrites (some cmd)).flatten = 13 :: strUtf8 cmd ∧
      (chatAcceptWrites none).flatten = [13] := by
  constructor <;> simp [chatAcceptWrites]

/-- Counterexample to C6 as stated: with no reasoning, a 30-character
answer, 10 columns and a row budget of 1, the render writes 5 rows. -/
theorem c6_counterexample :
    ¬ render_reply_block Language.En none false (List.replicate 30 'a') none 10 1 ≤ 1 := by
  decide

/-! ### Width-bounded tail truncation (C5) -/

theorem approx_display_width_cons (c : Char) (l : List Char) :
    approx_display_width (c :: l) = approx_char_width c + approx_display_width l := by
  simp [approx_display_width]

theorem approx_display_width_append (a b : List Char) :
    approx_display_width (a ++ b) = approx_display_width a + approx_display_width b := by
  simp [approx_display_width]

theorem approx_display_width_reverse (l : List Char) :
    approx_display_width l.reverse = approx_display_width l := by
  simp [approx_display_width, List.sum_reverse]

theorem tailTake_rest (mw : Nat) :
    ∀ l width, ∃ rest, tailTake mw width l ++ rest = l := by
  intro l
  induction l with
  | nil => intro width; exact ⟨[], rfl⟩
  | cons c r ih =>
    intro width
    unfold tailTake
    simp only []
    split
    · exact ⟨c :: r, rfl⟩
    · obtain ⟨rest, hrest⟩ := ih (width + approx_char_width c)
      exact ⟨rest, by rw [List.cons_append, hrest]⟩

theorem tailTake_width (mw : Nat) :
    ∀ l width, width ≤ mw →
      width + approx_display_width (tailTake mw width l) ≤ mw := by
  intro l
  induction l with
  | nil => intro width h; simpa [tailTake] using h
  | cons c r ih =>
    intro width h
    unfold tailTake
    simp only []
    split
    next => simpa using h
    next hle =>
      rw [approx_display_width_cons]
      have := ih (width + approx_char_width c) (by omega)
      omega

theorem tailTake_total (mw : Nat) :
    ∀ l width, tailTake mw width l = l ∨
      ∃ c rest, tailTake mw width l ++ c :: rest = l ∧
        mw < width + approx_display_width (tailTake mw width l) + approx_char_width c := by
  intro l
  induction l with
  | nil => intro width; exact Or.inl rfl
  | cons c r ih =>
    intro width
    unfold tailTake
    simp only []
    split
    next hgt =>
      refine Or.inr ⟨c, r, rfl, ?_⟩
      simpa [approx_display_width] using hgt
    next hle =>
      rcases ih (width + approx_char_width c) with heq | ⟨c', rest', hsplit, hlt⟩
      · exact Or.inl (by rw [heq])
      · refine Or.inr ⟨c', rest', by rw [List.cons_append, hsplit], ?_⟩
        rw [approx_display_width_cons]
        omega

/-- Counterexample to C5 as stated: at `maxWidth = 0` the function
returns the empty suffix even though the one-character suffix consisting
of the zero-width control character `U+0001` also has display width 0, so
the returned suffix is not maximal. -/
theorem c5_counterexample :
    [] ++ [Char.ofNat 1] = [Char.ofNat 1] ∧
      (truncate_tail_by_width [Char.ofNat 1] 0).length < [Char.ofNat 1].length ∧
      approx_display_width [Char.ofNat 1] ≤ 0 := by
  decide

/-- C5 (amended): for every positive width bound, `truncate_tail_by_width`
returns a suffix of the text whose display width does not exceed the
bound, and every strictly longer suffix has display width exceeding the
bound; for the bound 0 the result is the empty suffix (which need not be
maximal when the text ends in zero-width characters). -/
theorem c5_truncate_tail_maximal (s tl : List Char) (mw : Nat) (hmw : 1 ≤ mw) :
    (∃ pre, pre ++ truncate_tail_by_width s mw = s) ∧
    approx_display_width (truncate_tail_by_width s mw) ≤ mw ∧
    ((∃ pre2, pre2 ++ tl = s) →
      (truncate_tail_by_width s mw).length < tl.length →
      mw < approx_display_width tl) := by
  unfold truncate_tail_by_width
  rw [if_neg (by omega)]
  by_cases hfits : approx_display_width s ≤ mw
  · rw [if_pos hfits]
    refine ⟨⟨[], rfl⟩, hfits, ?_⟩
    rintro ⟨pre2, rfl⟩ hlen
    have : tl.length ≤ (pre2 ++ tl).length := by simp
    omega
  · rw [if_neg hfits]
    have hsub : ∃ rest, tailTake mw 0 s.reverse ++ rest = s.reverse :=
      tailTake_rest mw s.reverse 0
    have hwd : approx_display_width (tailTake mw 0 s.reverse) ≤ mw := by
      have := tailTake_width mw s.reverse 0 (by omega)
      omega
    obtain ⟨rest, hrest⟩ := hsub
    refine ⟨⟨rest.reverse, ?_⟩, ?_, ?_⟩
    · rw [← List.reverse_append, hrest, List.reverse_reverse]
    · rw [approx_display_width_reverse]
      exact hwd
    · rintro ⟨pre2, hpre2⟩ hlen
      rcases tailTake_total mw s.reverse 0 with heq | ⟨c, crest, hsplit, hlt⟩
      · exfalso
        have : approx_display_width s.reverse ≤ mw := by rw [heq] at hwd; exact hwd
        rw [approx_display_width_reverse] at this
        omega
      · -- s = crest.reverse ++ (c :: result)
        have hs : s = crest.reverse ++ (c :: (tailTake mw 0 s.reverse).reverse) := by
          have hrev := congrArg List.reverse hsplit
          rw [List.reverse_append, List.reverse_reverse] at hrev
          simp only [List.reverse_cons] at hrev
          conv_lhs => rw [← hrev]
          rw [List.append_assoc, List.singleton_append]
        set r := (tailTake mw 0 s.reverse).reverse with hr
        -- tl is a suffix of s longer than r, so c :: r is a suffix of tl
        have hlens : s.length = crest.reverse.length + (r.length + 1) := by
          rw [hs]; simp
        have hlenp : s.length = pre2.length + tl.length := by
          rw [← hpre2]; simp
        have hple : pre2.length ≤ crest.reverse.length := by omega
        have hdtl : s.drop pre2.length = tl := by
          rw [← hpre2]
          exact List.drop_left pre2 tl
        have hdcr : s.drop crest.reverse.length = c :: r := by
          rw [hs]
          exact List.drop_left crest.reverse (c :: r)
        have hcomp : (s.drop pre2.length).drop (crest.reverse.length - pre2.length)
            = s.drop crest.reverse.length := by
          rw [List.drop_drop]
          congr 1
          omega
        have htl_split : tl.drop (crest.reverse.length - pre2.length) = c :: r := by
          rw [← hdcr, ← hcomp, hdtl]
        have htl_eq : tl = tl.take (crest.reverse.length - pre2.length) ++ (c :: r) := by
          rw [← htl_split, List.take_append_drop]
        have hwidths : approx_display_width tl
            = approx_display_width (tl.take (crest.reverse.length - pre2.length))
              + (approx_char_width c + approx_display_width r) := by
          rw [← approx_display_width_cons, ← approx_display_width_append, ← htl_eq]
        have hwr : approx_display_width r = approx_display_width (tailTake mw 0 s.reverse) := by
          rw [hr, approx_display_width_reverse]
        omega

/-- Witness for C5 (amended) at `s = "abc"`, `tl = "bc"`, `maxWidth = 2`. -/
theorem c5_truncate_tail_maximal_witness :
    1 ≤ 2 ∧
    ((∃ pre, pre ++ truncate_tail_by_width ['a', 'b', 'c'] 2 = ['a', 'b', 'c']) ∧
      approx_display_width (truncate_tail_by_width ['a', 'b', 'c'] 2) ≤ 2 ∧
      ((∃ pre2, pre2 ++ ['b', 'c'] = ['a', 'b', 'c']) →
        (truncate_tail_by_width ['a', 'b', 'c'] 2).length < (['b', 'c'] : List Char).length →
        2 < approx_display_width ['b', 'c'])) :=
  ⟨by decide, c5_truncate_tail_maximal ['a', 'b', 'c'] ['b', 'c'] 2 (by decide)⟩

/-! ### Row-budget bounds for the reply block (C6, C7) -/

theorem wrap_rows_one_le (s : List Char) (cols : Nat) : 1 ≤ wrap_rows s cols := by
  unfold wrap_rows
  split
  · exact le_refl 1
  next h =>
    have hc : 0 < cols := Nat.pos_of_ne_zero h
    rw [Nat.one_le_div_iff hc]
    have := Nat.le_max_right (approx_display_width s) 1
    omega

theorem selectTailGo_le (cols budget : Nat) :
    ∀ rl used, used ≤ budget → (selectTailGo cols budget used rl).2 ≤ budget := by
  intro rl
  induction rl with
  | nil => intro used h; simpa [selectTailGo] using h
  | cons line rest ih =>
    intro used h
    unfold selectTailGo
    simp only []
    split
    next hfit => exact ih (used + wrap_rows line cols) hfit
    next hnofit =>
      split
      next => exact h
      next hrem =>
        split
        next => exact h
        next => omega

/-- C6 (amended): the render never writes more rows than `max_rows`,
provided the rows that the code never truncates fit the budget: the
hint/answer/candidate lines together, and (for the expanded-reasoning
path) the answer/candidate lines plus the reasoning start/end markers and
the truncation notice together, must not exceed `max_rows`.  (The code
only truncates expanded reasoning content; a sufficiently long answer
alone exceeds any budget, as the counterexample shows.) -/
theorem c6_render_row_budget (lang : Language) (reasoning : Option (List Char))
    (reasoning_expanded : Bool) (answer : List Char) (cmd : Option (List Char))
    (cols maxRows : Nat)
    (h1 : wrap_rows (t lang MessageKey.HintToggleReasoning) cols
        + assistantRowsOf lang answer cols + candidateRowsOf lang cmd cols ≤ maxRows)
    (h2 : assistantRowsOf lang answer cols + candidateRowsOf lang cmd cols
        + wrap_rows (t lang MessageKey.ReasoningStart) cols
        + wrap_rows (t lang MessageKey.ReasoningEnd) cols
        + wrap_rows (t lang MessageKey.ReasoningTruncated) cols ≤ maxRows) :
    render_reply_block lang reasoning reasoning_expanded answer cmd cols maxRows
      ≤ maxRows := by
  unfold render_reply_block
  cases reasoning with
  | none => simp only []; omega
  | some rtext =>
    simp only []
    cases reasoning_expanded with
    | false =>
      rw [if_neg (by decide)]
      omega
    | true =>
      rw [if_pos rfl]
      by_cases hres : maxRows ≤ assistantRowsOf lang answer cols
          + candidateRowsOf lang cmd cols
          + wrap_rows (t lang MessageKey.ReasoningStart) cols
          + wrap_rows (t lang MessageKey.ReasoningEnd) cols
      · rw [if_pos hres]
        omega
      · rw [if_neg hres]
        set A := assistantRowsOf lang answer cols with hA
        set C := candidateRowsOf lang cmd cols with hC
        set S := wrap_rows (t lang MessageKey.ReasoningStart) cols with hS
        set E := wrap_rows (t lang MessageKey.ReasoningEnd) cols with hE
        set T := wrap_rows (t lang MessageKey.ReasoningTruncated) cols with hT
        set budget0 := maxRows - (A + C + S + E) with hbudget0
        set total := ((rustLines rtext).map (fun l => wrap_rows l cols)).sum with htotal
        by_cases hshow : budget0 < total
        · rw [if_pos hshow, if_pos hshow]
          by_cases htr : budget0 ≤ T
          · rw [if_pos htr]
            rw [if_neg (by omega)]
            omega
          · rw [if_neg htr]
            have hpos : 0 < budget0 - T := by omega
            rw [if_pos hpos]
            have hcontent := selectTailGo_le cols (budget0 - T)
              (rustLines rtext).reverse 0 (Nat.zero_le _)
            omega
        · rw [if_neg hshow, if_neg hshow]
          by_cases hb0 : 0 < budget0
          · rw [if_pos hb0]
            have hcontent := selectTailGo_le cols budget0
              (rustLines rtext).reverse 0 (Nat.zero_le _)
            omega
          · rw [if_neg hb0]
            omega

/-- Witness for C6 (amended): an expanded reasoning block on an 80×24
terminal. -/
theorem c6_render_row_budget_witness :
    (wrap_rows (t Language.En MessageKey.HintToggleReasoning) 80
        + assistantRowsOf Language.En ['o', 'k'] 80
        + candidateRowsOf Language.En (some ['l', 's']) 80 ≤ 24) ∧
    (assistantRowsOf Language.En ['o', 'k'] 80
        + candidateRowsOf Language.En (some ['l', 's']) 80
        + wrap_rows (t Language.En MessageKey.ReasoningStart) 80
        + wrap_rows (t Language.En MessageKey.ReasoningEnd) 80
        + wrap_rows (t Language.En MessageKey.ReasoningTruncated) 80 ≤ 24) ∧
    render_reply_block Language.En (some ['w', 'h', 'y']) true ['o', 'k']
      (some ['l', 's']) 80 24 ≤ 24 :=
  ⟨by decide, by decide,
    c6_render_row_budget Language.En (some ['w', 'h', 'y']) true ['o', 'k']
      (some ['l', 's']) 80 24 (by decide) (by decide)⟩

theorem render_reply_block_pos (lang : Language) (reasoning : Option (List Char))
    (reasoning_expanded : Bool) (answer : List Char) (cmd : Option (List Char))
    (cols maxRows : Nat) :
    1 ≤ render_reply_block lang reasoning reasoning_expanded answer cmd cols maxRows := by
  have h := wrap_rows_one_le
    (t lang MessageKey.PromptAssistant ++ normalize_to_single_line answer) cols
  unfold render_reply_block assistantRowsOf
  simp only []
  omega

theorem toggleStep_eq (lang : Language) (cols maxRows : Nat)
    (cmd0 ans0 : Option (List Char)) (rtext : List Char) (exp0 : Bool) (rows0 : Nat)
    (hpos : 0 < rows0) :
    toggleStep lang cols maxRows ⟨cmd0, ans0, some rtext, exp0, rows0⟩
      = ⟨cmd0, ans0, some rtext, !exp0,
          render_reply_block lang (some rtext) (!exp0) (ans0.getD []) cmd0 cols
            maxRows⟩ := by
  unfold toggleStep
  rw [if_pos ⟨rfl, hpos⟩]

/-- C7: from a collapsed state holding a reasoning trace whose recorded
row count came from the previous render (with the same terminal
dimensions), toggling reasoning twice returns to a collapsed state whose
re-render records exactly the original row count. -/
theorem c7_toggle_roundtrip (lang : Language) (cols maxRows : Nat)
    (st : OverlayState) (rtext : List Char)
    (hreason : st.last_reasoning = some rtext)
    (hcollapsed : st.reasoning_expanded = false)
    (hrows : st.last_reply_rows
      = render_reply_block lang (some rtext) false (st.last_answer.getD [])
          st.last_cmd cols maxRows) :
    (toggleStep lang cols maxRows (toggleStep lang cols maxRows st)).last_reply_rows
        = st.last_reply_rows ∧
      (toggleStep lang cols maxRows (toggleStep lang cols maxRows st)).reasoning_expanded
        = false := by
  obtain ⟨cmd0, ans0, rs0, exp0, rows0⟩ := st
  have h1 : rs0 = some rtext := hreason
  have h2 : exp0 = false := hcollapsed
  have h3 : rows0 = render_reply_block lang (some rtext) false (ans0.getD []) cmd0
      cols maxRows := hrows
  subst h1
  subst h2
  have hpos : 0 < rows0 := by
    rw [h3]
    exact render_reply_block_pos lang (some rtext) false (ans0.getD []) cmd0 cols
      maxRows
  have hpos2 : 0 < render_reply_block lang (some rtext) (!false) (ans0.getD []) cmd0
      cols maxRows :=
    render_reply_block_pos lang (some rtext) (!false) (ans0.getD []) cmd0 cols maxRows
  rw [toggleStep_eq lang cols maxRows cmd0 ans0 rtext false rows0 hpos]
  rw [toggleStep_eq lang cols maxRows cmd0 ans0 rtext (!false)
    (render_reply_block lang (some rtext) (!false) (ans0.getD []) cmd0 cols maxRows)
    hpos2]
  simp only [Bool.not_false, Bool.not_true]
  exact ⟨h3.symm, trivial⟩

/-- Witness for C7 at a concrete collapsed state on an 80×24 terminal. -/
theorem c7_toggle_roundtrip_witness :
    ((⟨some ['l', 's'], some ['h', 'i'], some ['w', 'h', 'y'], false,
        render_reply_block Language.En (some ['w', 'h', 'y']) false
          ((some ['h', 'i'] : Option (List Char)).getD []) (some ['l', 's']) 80 24⟩ :
        OverlayState).last_reasoning = some ['w', 'h', 'y']) ∧
    ((toggleStep Language.En 80 24 (toggleStep Language.En 80 24
        ⟨some ['l', 's'], some ['h', 'i'], some ['w', 'h', 'y'], false,
          render_reply_block Language.En (some ['w', 'h', 'y']) false
            ((some ['h', 'i'] : Option (List Char)).getD []) (some ['l', 's']) 80
            24⟩)).last_reply_rows
      = (⟨some ['l', 's'], some ['h', 'i'], some ['w', 'h', 'y'], false,
          render_reply_block Language.En (some ['w', 'h', 'y']) false
            ((some ['h', 'i'] : Option (List Char)).getD []) (some ['l', 's']) 80
            24⟩ : OverlayState).last_reply_rows ∧
      (toggleStep Language.En 80 24 (toggleStep Language.En 80 24
        ⟨some ['l', 's'], some ['h', 'i'], some ['w', 'h', 'y'], false,
          render_reply_block Language.En (some ['w', 'h', 'y']) false
            ((some ['h', 'i'] : Option (List Char)).getD []) (some ['l', 's']) 80
            24⟩)).reasoning_expanded = false) :=
  ⟨rfl, c7_toggle_roundtrip Language.En 80 24 _ ['w', 'h', 'y'] rfl rfl rfl⟩

end Shellm
